import Mathlib

/-!
Shallow embedding of the performance-metrics engine of class vkb::Stats
(framework/stats/stats.h).  The header declares the interface and the state
fields; the implementation file is not part of the sources, so the bodies of
the operations are modelled from the specification where the doc comments say
so.  Sample readings are modelled as rationals, metric identifiers as natural
numbers, and the per-metric maps as association lists.
-/

namespace VkbStats

/-- Metric identifiers (StatIndex in stats_common.h): an enumerated tag,
modelled abstractly as a natural number. -/
abbrev StatIndex := Nat

/-- The distinguished frame-time metric identifier. -/
def frame_time_index : StatIndex := 0

/-- A raw sample (StatsProvider::Counters): a mapping from metric identifier
to a reading, modelled as an association list. -/
abbrev Sample := List (StatIndex × ℚ)

/-- Sampling mode (CounterSamplingMode in stats_common.h). -/
inductive CounterSamplingMode
  | Polling
  | Continuous
  deriving DecidableEq

/-- Modelled from the spec: CounterSamplingConfig (declared in stats_common.h,
which is absent from the sources): a mode and an optional sampling interval
used by continuous mode. -/
structure CounterSamplingConfig where
  mode : CounterSamplingMode
  sampling_interval : Option ℚ
  deriving DecidableEq

/-- Per-metric state: the circular buffer of smoothed values, oldest first,
and the smoothing state (the last smoothed value, none before the first
sample for the metric). -/
structure MetricState where
  buffer : List ℚ
  smoothed : Option ℚ
  deriving DecidableEq

/-- The state of a Stats object (private fields of class Stats,
stats.h lines 135-176). -/
structure StatsState where
  requested_stats : List StatIndex
  provider_caps : List (List StatIndex)
  sampling_config : CounterSamplingConfig
  capacity : Nat
  counters : List (StatIndex × MetricState)
  continuous_samples : List Sample
  deriving DecidableEq

/-- The smoothing factor for the running average
(stats.h line 155: alpha_smoothing is initialised to 0.2). -/
def alpha_smoothing : ℚ := 1 / 5

/-- Modelled from the spec: owner resolution performed at construction (the
constructor body is absent from the sources) — for each requested identifier,
the first provider in priority order that reports capability owns it;
an identifier outside the requested set has no owner. -/
def ownerOf (requested : List StatIndex) (caps : List (List StatIndex))
    (id : StatIndex) : Option Nat :=
  if requested.contains id then caps.findIdx? (fun c => c.contains id) else none

/-- The member Stats::is_available (stats.h line 75): whether any provider
claimed ownership of the identifier. -/
def Stats.is_available (st : StatsState) (id : StatIndex) : Bool :=
  (ownerOf st.requested_stats st.provider_caps id).isSome

/-- The member Stats::get_data (stats.h lines 89-92), whose inline body is
counters.at(index).  The call std::map::at throws std::out_of_range when the
key is absent, modelled as an Except.error result. -/
def Stats.get_data (st : StatsState) (id : StatIndex) : Except Unit (List ℚ) :=
  match st.counters.lookup id with
  | some m => Except.ok m.buffer
  | none => Except.error ()

/-- Keep the last n elements of a list. -/
def lastN (n : Nat) (l : List ℚ) : List ℚ :=
  l.drop (l.length - n)

/-- Append a value to a circular buffer of the given capacity, evicting the
oldest values when full. -/
def pushToBuffer (cap : Nat) (buf : List ℚ) (v : ℚ) : List ℚ :=
  lastN cap (buf ++ [v])

/-- One smoothing step: the first sample for a metric seeds the smoothed
value with the raw reading; every later sample applies the exponential
moving average. -/
def smoothValue (alpha : ℚ) (prev : Option ℚ) (raw : ℚ) : ℚ :=
  match prev with
  | none => raw
  | some p => p * (1 - alpha) + raw * alpha

/-- Merge one raw reading into one metric's state: smooth it and append the
smoothed value to the circular buffer. -/
def mergeValue (cap : Nat) (alpha : ℚ) (m : MetricState) (raw : ℚ) : MetricState :=
  let s := smoothValue alpha m.smoothed raw
  ⟨pushToBuffer cap m.buffer s, some s⟩

/-- Merge one raw sample into one metric entry: when the sample carries a
reading for this metric, merge it; otherwise the metric is skipped for this
tick. -/
def mergeEntry (cap : Nat) (alpha : ℚ) (sample : Sample) (id : StatIndex)
    (m : MetricState) : MetricState :=
  match sample.lookup id with
  | none => m
  | some raw => mergeValue cap alpha m raw

/-- Modelled from the spec: the member Stats::push_sample (stats.h lines
182-183; its body is absent from the sources): updates the circular buffer
and smoothing state of every metric present in the sample. -/
def Stats.push_sample (st : StatsState) (sample : Sample) : StatsState :=
  { st with counters := st.counters.map (fun e =>
      (e.1, mergeEntry st.capacity alpha_smoothing sample e.1 e.2)) }

/-- Modelled from the spec: the frame-time value merged by a polling update —
the delta_time argument when it is non-zero, otherwise the distinguished
frame-time provider's own reading. -/
def frameTimeValue (delta_time ft_reading : ℚ) : ℚ :=
  if delta_time = 0 then ft_reading else delta_time

/-- A raw sample gathering a reading for every owned requested identifier. -/
def guardedSample (requested : List StatIndex) (caps : List (List StatIndex))
    (val : StatIndex → ℚ) : Sample :=
  requested.filterMap (fun i =>
    if (ownerOf requested caps i).isSome then some (i, val i) else none)

/-- Modelled from the spec: the merged raw sample of a polling update —
every owning provider is sampled for the identifiers it owns, and the
frame-time metric carries the value of frameTimeValue. -/
def pollSample (st : StatsState) (delta_time : ℚ) (readings : StatIndex → ℚ)
    (ft_reading : ℚ) : Sample :=
  guardedSample st.requested_stats st.provider_caps
    (fun i => if i = frame_time_index then frameTimeValue delta_time ft_reading
              else readings i)

/-- Modelled from the spec: a raw sample produced by the continuous-sampling
worker at one interval — every owning provider sampled for its owned
identifiers. -/
def workerSample (st : StatsState) (readings : StatIndex → ℚ) : Sample :=
  guardedSample st.requested_stats st.provider_caps readings

/-- Modelled from the spec: the worker appends one raw sample at the back of
the continuous-sample queue, under the queue lock. -/
def Stats.enqueue_sample (st : StatsState) (s : Sample) : StatsState :=
  { st with continuous_samples := st.continuous_samples ++ [s] }

/-- Modelled from the spec: the member Stats::update (stats.h line 105; its
body is absent from the sources).  Polling mode samples the providers and
merges the one resulting sample; continuous mode drains the whole queue and
merges every drained sample in order, oldest first. -/
def Stats.update (st : StatsState) (delta_time : ℚ) (readings : StatIndex → ℚ)
    (ft_reading : ℚ) : StatsState :=
  match st.sampling_config.mode with
  | CounterSamplingMode.Polling =>
      Stats.push_sample st (pollSample st delta_time readings ft_reading)
  | CounterSamplingMode.Continuous =>
      st.continuous_samples.foldl Stats.push_sample
        { st with continuous_samples := [] }

/-- Modelled from the spec: the member Stats::resize (stats.h line 68; its
body is absent from the sources): recompute the buffer capacity from the new
display width and reallocate every metric's circular buffer, discarding prior
history.  The width-to-capacity formula is a parameter of the model. -/
def Stats.resize (capacity_from_width : Nat → Nat) (st : StatsState)
    (width : Nat) : StatsState :=
  { st with
    capacity := capacity_from_width width
    counters := st.counters.map (fun e => (e.1, { e.2 with buffer := [] })) }

/-- Modelled from the spec: the Stats constructor (stats.h lines 53-57; its
body is absent from the sources).  The device and the framebuffer count are
opaque external collaborators.  The distinguished frame-time provider is
always present and has the highest priority, so it owns the frame-time
identifier whenever that metric is requested; the host's provider
capabilities follow in priority order.  Every requested identifier gets
exactly one circular buffer, created empty. -/
def Stats.construct (device num_framebuffers : Nat) (requested : List StatIndex)
    (host_provider_caps : List (List StatIndex)) (cfg : CounterSamplingConfig)
    (buffer_size : Nat) : StatsState :=
  { requested_stats := requested
    provider_caps := [frame_time_index] :: host_provider_caps
    sampling_config := cfg
    capacity := buffer_size
    counters := requested.map (fun id => (id, ⟨[], none⟩))
    continuous_samples := [] }

/-- The default sampling configuration of the constructor (stats.h line 56):
the aggregate initialiser with the Polling mode and the interval field
defaulted. -/
def default_sampling_config : CounterSamplingConfig :=
  { mode := CounterSamplingMode.Polling, sampling_interval := none }

/-- The default circular-buffer size of the constructor (stats.h line 57). -/
def default_buffer_size : Nat := 16

/-- Constructing with only the leading parameters: the C++ call site
elaborates the omitted trailing arguments to the declared defaults
(stats.h lines 53-57). -/
def Stats.construct_defaulted (device num_framebuffers : Nat)
    (requested : List StatIndex)
    (host_provider_caps : List (List StatIndex)) : StatsState :=
  Stats.construct device num_framebuffers requested host_provider_caps
    default_sampling_config default_buffer_size

/-- The engine operations available after construction, used for statements
about the engine's whole lifetime. -/
inductive Op
  | update (delta_time : ℚ) (readings : StatIndex → ℚ) (ft_reading : ℚ)
  | resize (width : Nat)
  | worker_enqueue (readings : StatIndex → ℚ)

/-- Apply one lifetime operation to the engine state. -/
def applyOp (capacity_from_width : Nat → Nat) (st : StatsState) : Op → StatsState
  | Op.update d r ft => Stats.update st d r ft
  | Op.resize w => Stats.resize capacity_from_width st w
  | Op.worker_enqueue r => Stats.enqueue_sample st (workerSample st r)

/-- The sequence of smoothed values produced by merging raw readings in
order, starting from a given smoothing state. -/
def emaFrom (alpha : ℚ) (prev : Option ℚ) : List ℚ → List ℚ
  | [] => []
  | r :: rs =>
    let s := smoothValue alpha prev r
    s :: emaFrom alpha (some s) rs

/-- Worker-thread status for the teardown model. -/
inductive WorkerStatus
  | running
  | done
  deriving DecidableEq

/-- Modelled from the spec: the state observed during destruction in
continuous mode — the worker thread and the destructor steps (fulfil the
one-shot stop promise, join, complete teardown); the destructor body of
Stats is absent from the sources. -/
structure TState where
  worker : WorkerStatus
  stop_signaled : Bool
  joined : Bool
  destroyed : Bool
  deriving DecidableEq

/-- Events of the teardown model: the worker samples the providers or exits
after observing the stop signal; the destructor fulfils the stop promise,
joins the worker, and completes teardown. -/
inductive TEvent
  | sample
  | worker_exit
  | signal_stop
  | join
  | destroy
  deriving DecidableEq

/-- One step of the teardown model; the guards encode when each event can
occur: the worker samples only while running and exits only after the stop
signal; the destructor joins only after fulfilling the stop promise and only
once the worker has finished (a blocking join), and teardown completes only
after the join. -/
def tstep (s : TState) : TEvent → Option TState
  | TEvent.sample =>
      if s.worker = WorkerStatus.running then some s else none
  | TEvent.worker_exit =>
      if s.worker = WorkerStatus.running ∧ s.stop_signaled then
        some { s with worker := WorkerStatus.done }
      else none
  | TEvent.signal_stop =>
      if s.stop_signaled then none else some { s with stop_signaled := true }
  | TEvent.join =>
      if s.stop_signaled ∧ s.worker = WorkerStatus.done ∧ ¬s.joined then
        some { s with joined := true }
      else none
  | TEvent.destroy =>
      if s.joined ∧ ¬s.destroyed then some { s with destroyed := true } else none

/-- Initial teardown state: the worker is running (continuous mode), nothing
has been signalled yet. -/
def initTState : TState :=
  { worker := WorkerStatus.running, stop_signaled := false,
    joined := false, destroyed := false }

/-- Run a trace of the teardown model; the result is none when some event in
the trace was not enabled. -/
def runTrace (s : TState) : List TEvent → Option TState
  | [] => some s
  | e :: es =>
    match tstep s e with
    | none => none
    | some s2 => runTrace s2 es

theorem lookup_map_entry {β γ : Type} (l : List (Nat × β)) (g : Nat → β → γ)
    (a : Nat) :
    (l.map (fun e => (e.1, g e.1 e.2))).lookup a = (l.lookup a).map (g a) := by
  induction l with
  | nil => rfl
  | cons e es ih =>
    obtain ⟨k, b⟩ := e
    by_cases h : a = k
    · subst h
      simp [List.lookup]
    · have hbeq : (a == k) = false := by simpa using h
      simp [List.lookup, hbeq, ih]

theorem keys_map_entry {β γ : Type} (l : List (Nat × β)) (g : Nat → β → γ) :
    (l.map (fun e => (e.1, g e.1 e.2))).map Prod.fst = l.map Prod.fst := by
  simp [List.map_map, Function.comp]

theorem lookup_eq_none_of_not_mem_keys {β : Type} (l : List (Nat × β)) (a : Nat)
    (h : a ∉ l.map Prod.fst) : l.lookup a = none := by
  induction l with
  | nil => rfl
  | cons e es ih =>
    simp only [List.map_cons, List.mem_cons, not_or] at h
    have hbeq : (a == e.1) = false := by simpa using h.1
    cases e
    simp only [List.lookup, hbeq]
    exact ih h.2

theorem lookup_single_sample (id : StatIndex) (r : ℚ) :
    ([(id, r)] : Sample).lookup id = some r := by
  simp [List.lookup]

theorem push_sample_requested (st : StatsState) (s : Sample) :
    (Stats.push_sample st s).requested_stats = st.requested_stats := rfl

theorem push_sample_provider_caps (st : StatsState) (s : Sample) :
    (Stats.push_sample st s).provider_caps = st.provider_caps := rfl

theorem push_sample_capacity (st : StatsState) (s : Sample) :
    (Stats.push_sample st s).capacity = st.capacity := rfl

theorem push_sample_config (st : StatsState) (s : Sample) :
    (Stats.push_sample st s).sampling_config = st.sampling_config := rfl

theorem push_sample_queue (st : StatsState) (s : Sample) :
    (Stats.push_sample st s).continuous_samples = st.continuous_samples := rfl

theorem push_sample_lookup (st : StatsState) (s : Sample) (id : StatIndex) :
    (Stats.push_sample st s).counters.lookup id
      = (st.counters.lookup id).map (mergeEntry st.capacity alpha_smoothing s id) :=
  lookup_map_entry st.counters (mergeEntry st.capacity alpha_smoothing s) id

theorem push_sample_keys (st : StatsState) (s : Sample) :
    (Stats.push_sample st s).counters.map Prod.fst = st.counters.map Prod.fst :=
  keys_map_entry st.counters (mergeEntry st.capacity alpha_smoothing s)

theorem length_lastN_le (n : Nat) (l : List ℚ) : (lastN n l).length ≤ n := by
  simp only [lastN, List.length_drop]
  omega

theorem lastN_of_length_le {n : Nat} {l : List ℚ} (h : l.length ≤ n) :
    lastN n l = l := by
  simp [lastN, Nat.sub_eq_zero_of_le h]

theorem lastN_cons_of_le {n : Nat} (x : ℚ) {xs : List ℚ} (h : n ≤ xs.length) :
    lastN n (x :: xs) = lastN n xs := by
  simp only [lastN, List.length_cons]
  have hsub : xs.length + 1 - n = (xs.length - n) + 1 := by omega
  rw [hsub, List.drop_succ_cons]

theorem lastN_append_lastN (n : Nat) (xs ys : List ℚ) :
    lastN n (lastN n xs ++ ys) = lastN n (xs ++ ys) := by
  induction xs with
  | nil => simp [lastN]
  | cons x xs ih =>
    by_cases h : n ≤ xs.length
    · have h2 : n ≤ (xs ++ ys).length := by
        rw [List.length_append]; omega
      rw [lastN_cons_of_le x h, ih, List.cons_append, lastN_cons_of_le x h2]
    · rw [lastN_of_length_le (l := x :: xs) (by rw [List.length_cons]; omega),
        List.cons_append]

theorem lastN_eq_drop {n k : Nat} {l : List ℚ} (h : l.length = n + k) :
    lastN n l = l.drop k := by
  simp only [lastN]
  congr 1
  omega

theorem length_pushToBuffer_le (cap : Nat) (buf : List ℚ) (v : ℚ) :
    (pushToBuffer cap buf v).length ≤ cap :=
  length_lastN_le cap (buf ++ [v])

theorem length_emaFrom (alpha : ℚ) (prev : Option ℚ) (l : List ℚ) :
    (emaFrom alpha prev l).length = l.length := by
  induction l generalizing prev with
  | nil => rfl
  | cons r rs ih => simp [emaFrom, ih]

theorem emaFrom_head (alpha : ℚ) (r : ℚ) (rs : List ℚ) :
    (emaFrom alpha none (r :: rs)).getD 0 0 = r := by
  simp [emaFrom, smoothValue]

theorem emaFrom_getD_succ (alpha : ℚ) (prev : Option ℚ) (l : List ℚ) :
    ∀ n, n + 1 < l.length →
      (emaFrom alpha prev l).getD (n + 1) 0
        = (emaFrom alpha prev l).getD n 0 * (1 - alpha)
          + l.getD (n + 1) 0 * alpha := by
  induction l generalizing prev with
  | nil => intro n h; simp at h
  | cons r rs ih =>
    intro n h
    cases rs with
    | nil => simp at h
    | cons r2 rs2 =>
      cases n with
      | zero => simp [emaFrom, smoothValue]
      | succ m =>
        simp only [emaFrom, List.getD_cons_succ]
        exact ih (some (smoothValue alpha prev r)) m (by simpa using h)

theorem foldl_mergeValue_buffer (cap : Nat) (alpha : ℚ) (raws : List ℚ) :
    ∀ m : MetricState, m.buffer.length ≤ cap →
      (raws.foldl (mergeValue cap alpha) m).buffer
        = lastN cap (m.buffer ++ emaFrom alpha m.smoothed raws) := by
  induction raws with
  | nil =>
    intro m hm
    simp [emaFrom, lastN_of_length_le hm]
  | cons r rs ih =>
    intro m hm
    simp only [List.foldl_cons]
    have hb : (mergeValue cap alpha m r).buffer
        = pushToBuffer cap m.buffer (smoothValue alpha m.smoothed r) := rfl
    have hs : (mergeValue cap alpha m r).smoothed
        = some (smoothValue alpha m.smoothed r) := rfl
    have hlen : (mergeValue cap alpha m r).buffer.length ≤ cap := by
      rw [hb]; exact length_pushToBuffer_le cap m.buffer _
    rw [ih (mergeValue cap alpha m r) hlen, hb, hs]
    simp only [emaFrom, pushToBuffer]
    rw [lastN_append_lastN]
    simp [List.append_assoc]

theorem foldl_mergeValue_smoothed (cap : Nat) (alpha : ℚ) (raws : List ℚ) :
    ∀ m : MetricState,
      (raws.foldl (mergeValue cap alpha) m).smoothed
        = ((emaFrom alpha m.smoothed raws).getLast?).or m.smoothed := by
  induction raws with
  | nil => intro m; simp [emaFrom]
  | cons r rs ih =>
    intro m
    simp only [List.foldl_cons]
    rw [ih]
    have hs : (mergeValue cap alpha m r).smoothed
        = some (smoothValue alpha m.smoothed r) := rfl
    rw [hs]
    simp only [emaFrom]
    cases htail : emaFrom alpha (some (smoothValue alpha m.smoothed r)) rs with
    | nil => simp
    | cons a t =>
      rw [List.getLast?_cons_cons]
      have hys : ((a :: t).getLast?).isSome := by
        simp [List.getLast?_isSome]
      obtain ⟨y, hy⟩ := Option.isSome_iff_exists.mp hys
      rw [hy]
      simp

theorem foldl_push_single (id : StatIndex) (raws : List ℚ) :
    ∀ (st : StatsState) (m : MetricState), st.counters.lookup id = some m →
      ((raws.map (fun r => [(id, r)])).foldl Stats.push_sample st).counters.lookup id
        = some (raws.foldl (mergeValue st.capacity alpha_smoothing) m) := by
  induction raws with
  | nil => intro st m hm; simpa using hm
  | cons r rs ih =>
    intro st m hm
    simp only [List.map_cons, List.foldl_cons]
    have hstep : (Stats.push_sample st [(id, r)]).counters.lookup id
        = some (mergeValue st.capacity alpha_smoothing m r) := by
      rw [push_sample_lookup, hm]
      simp [mergeEntry, lookup_single_sample]
    have hres := ih (Stats.push_sample st [(id, r)]) _ hstep
    rw [push_sample_capacity] at hres
    exact hres

theorem foldl_mergeValue_fresh (cap : Nat) (raws : List ℚ) :
    raws.foldl (mergeValue cap alpha_smoothing) ⟨[], none⟩
      = ⟨lastN cap (emaFrom alpha_smoothing none raws),
         (emaFrom alpha_smoothing none raws).getLast?⟩ := by
  cases hres : raws.foldl (mergeValue cap alpha_smoothing) (⟨[], none⟩ : MetricState) with
  | mk b s =>
    have hb := foldl_mergeValue_buffer cap alpha_smoothing raws ⟨[], none⟩
      (by simp)
    have hs := foldl_mergeValue_smoothed cap alpha_smoothing raws ⟨[], none⟩
    rw [hres] at hb hs
    simp only [List.nil_append, Option.or_none] at hb hs
    simp [hb, hs]

theorem push_sample_buffer_le (st : StatsState) (s : Sample)
    (hinv : ∀ e ∈ st.counters, e.2.buffer.length ≤ st.capacity) :
    ∀ e ∈ (Stats.push_sample st s).counters,
      e.2.buffer.length ≤ st.capacity := by
  intro e he
  simp only [Stats.push_sample, List.mem_map] at he
  obtain ⟨e0, he0, rfl⟩ := he
  cases hluk : s.lookup e0.1 with
  | none =>
    simp only [mergeEntry, hluk]
    exact hinv e0 he0
  | some raw =>
    simp only [mergeEntry, hluk, mergeValue]
    exact length_pushToBuffer_le _ _ _

theorem foldl_push_buffer_le (samples : List Sample) :
    ∀ st : StatsState, (∀ e ∈ st.counters, e.2.buffer.length ≤ st.capacity) →
      ∀ e ∈ (samples.foldl Stats.push_sample st).counters,
        e.2.buffer.length ≤ st.capacity := by
  induction samples with
  | nil => intro st hinv; simpa using hinv
  | cons s ss ih =>
    intro st hinv
    simp only [List.foldl_cons]
    have h1 := push_sample_buffer_le st s hinv
    have h2 := ih (Stats.push_sample st s)
      (by rw [push_sample_capacity]; exact h1)
    rw [push_sample_capacity] at h2
    exact h2

/-- C1: for every metric, merging a fixed sequence of raw samples follows the
exponential-moving-average recurrence with alpha = 0.2: the first sample
seeds the smoothed value with the raw reading, every later sample n yields
smoothed n = smoothed (n-1) * (1 - alpha) + raw n * alpha, and after the
merges the metric's circular buffer holds exactly the sequence of smoothed
values in order, up to capacity. -/
theorem push_sample_ema_recurrence (st : StatsState) (id : StatIndex)
    (raws : List ℚ) (hm : st.counters.lookup id = some ⟨[], none⟩) :
    ((raws.map (fun r => [(id, r)])).foldl Stats.push_sample st).counters.lookup id
      = some ⟨lastN st.capacity (emaFrom alpha_smoothing none raws),
              (emaFrom alpha_smoothing none raws).getLast?⟩ ∧
    (∀ r0 rs, raws = r0 :: rs →
      (emaFrom alpha_smoothing none raws).getD 0 0 = r0) ∧
    (∀ n, n + 1 < raws.length →
      (emaFrom alpha_smoothing none raws).getD (n + 1) 0
        = (emaFrom alpha_smoothing none raws).getD n 0 * (1 - alpha_smoothing)
          + raws.getD (n + 1) 0 * alpha_smoothing) ∧
    alpha_smoothing = 1 / 5 := by
  refine ⟨?_, ?_, ?_, rfl⟩
  · rw [foldl_push_single id raws st ⟨[], none⟩ hm, foldl_mergeValue_fresh]
  · intro r0 rs hr
    subst hr
    exact emaFrom_head alpha_smoothing r0 rs
  · exact emaFrom_getD_succ alpha_smoothing none raws

/-- Witness for C1, at the concrete example of the spec: four raw frame-time
readings 16, 17, 15, 16 with capacity 4 produce the smoothed sequence
16, 16.2, 15.96, 15.968. -/
theorem push_sample_ema_recurrence_witness :
    (Stats.construct 0 1 [3] [[3]] default_sampling_config 4).counters.lookup 3
      = some ⟨[], none⟩ ∧
    (([(16 : ℚ), 17, 15, 16].map (fun r => [((3 : StatIndex), r)])).foldl
        Stats.push_sample
        (Stats.construct 0 1 [3] [[3]] default_sampling_config 4)).counters.lookup 3
      = some ⟨lastN 4 (emaFrom alpha_smoothing none [16, 17, 15, 16]),
              (emaFrom alpha_smoothing none [16, 17, 15, 16]).getLast?⟩ ∧
    emaFrom alpha_smoothing none [16, 17, 15, 16]
      = [16, 81 / 5, 399 / 25, 1996 / 125] := by
  refine ⟨rfl, ?_, by norm_num [emaFrom, smoothValue, alpha_smoothing]⟩
  exact (push_sample_ema_recurrence
    (Stats.construct 0 1 [3] [[3]] default_sampling_config 4) 3
    [16, 17, 15, 16] rfl).1

/-- C2: the circular buffers never exceed the configured capacity under any
sequence of pushes, and after capacity + k merges of a fresh metric the
buffer holds exactly the last capacity smoothed values in arrival order. -/
theorem circular_buffer_capacity_invariant (st : StatsState)
    (samples : List Sample)
    (hinv : ∀ e ∈ st.counters, e.2.buffer.length ≤ st.capacity) :
    (∀ e ∈ (samples.foldl Stats.push_sample st).counters,
        e.2.buffer.length ≤ st.capacity) ∧
    (∀ (id : StatIndex) (raws : List ℚ) (k : Nat),
        st.counters.lookup id = some ⟨[], none⟩ →
        raws.length = st.capacity + k →
        ((raws.map (fun r => [(id, r)])).foldl Stats.push_sample st).counters.lookup id
          = some ⟨(emaFrom alpha_smoothing none raws).drop k,
                  (emaFrom alpha_smoothing none raws).getLast?⟩) := by
  refine ⟨foldl_push_buffer_le samples st hinv, ?_⟩
  intro id raws k hm hlen
  rw [foldl_push_single id raws st ⟨[], none⟩ hm, foldl_mergeValue_fresh]
  rw [lastN_eq_drop (by rw [length_emaFrom]; exact hlen)]

/-- Witness for C2: capacity 2, three merges; the buffer keeps the last two
smoothed values. -/
theorem circular_buffer_capacity_invariant_witness :
    (∀ e ∈ (Stats.construct 0 1 [3] [[3]] default_sampling_config 2).counters,
        e.2.buffer.length ≤ (Stats.construct 0 1 [3] [[3]] default_sampling_config 2).capacity) ∧
    (Stats.construct 0 1 [3] [[3]] default_sampling_config 2).counters.lookup 3
      = some ⟨[], none⟩ ∧
    ([(16 : ℚ), 17, 15].length = 2 + 1) ∧
    (([(16 : ℚ), 17, 15].map (fun r => [((3 : StatIndex), r)])).foldl
        Stats.push_sample
        (Stats.construct 0 1 [3] [[3]] default_sampling_config 2)).counters.lookup 3
      = some ⟨(emaFrom alpha_smoothing none [16, 17, 15]).drop 1,
              (emaFrom alpha_smoothing none [16, 17, 15]).getLast?⟩ := by
  refine ⟨by decide, rfl, rfl, ?_⟩
  exact (circular_buffer_capacity_invariant
      (Stats.construct 0 1 [3] [[3]] default_sampling_config 2) [] (by decide)).2
    3 [16, 17, 15] 1 rfl rfl

/-- C8: resize recomputes the capacity from the display width, discards all
prior history in every metric's circular buffer, and subsequent pushes
respect the new capacity. -/
theorem resize_discards_history (capacity_from_width : Nat → Nat)
    (st : StatsState) (width : Nat) (samples : List Sample) :
    (Stats.resize capacity_from_width st width).capacity
        = capacity_from_width width ∧
    (∀ e ∈ (Stats.resize capacity_from_width st width).counters,
        e.2.buffer = []) ∧
    (∀ e ∈ (samples.foldl Stats.push_sample
          (Stats.resize capacity_from_width st width)).counters,
        e.2.buffer.length ≤ capacity_from_width width) := by
  refine ⟨rfl, ?_, ?_⟩
  · intro e he
    simp only [Stats.resize, List.mem_map] at he
    obtain ⟨e0, he0, rfl⟩ := he
    rfl
  · exact foldl_push_buffer_le samples (Stats.resize capacity_from_width st width)
      (by
        intro e he
        simp only [Stats.resize, List.mem_map] at he
        obtain ⟨e0, he0, rfl⟩ := he
        simp [Stats.resize])

/-- Witness for C8: after a resize to width 64 with a width-to-capacity
formula dividing by 16, the buffer of the only metric is empty and one
subsequent push respects the capacity 4. -/
theorem resize_discards_history_witness :
    ((3 : StatIndex), (⟨[], some 9⟩ : MetricState)) ∈
      (Stats.resize (fun w => w / 16)
        (Stats.push_sample (Stats.construct 0 1 [3] [[3]] default_sampling_config 2)
          [(3, 9)]) 64).counters ∧
    (Stats.resize (fun w => w / 16)
        (Stats.push_sample (Stats.construct 0 1 [3] [[3]] default_sampling_config 2)
          [(3, 9)]) 64).capacity = 4 ∧
    ((⟨[], some 9⟩ : MetricState).buffer = ([] : List ℚ)) := by
  refine ⟨?_, ?_, ?_⟩
  · decide
  · exact (resize_discards_history (fun w => w / 16)
      (Stats.push_sample (Stats.construct 0 1 [3] [[3]] default_sampling_config 2)
        [(3, 9)]) 64 []).1
  · exact (resize_discards_history (fun w => w / 16)
      (Stats.push_sample (Stats.construct 0 1 [3] [[3]] default_sampling_config 2)
        [(3, 9)]) 64 []).2.1 ((3 : StatIndex), (⟨[], some 9⟩ : MetricState))
      (by decide)

theorem foldl_enqueue (ss : List Sample) :
    ∀ st : StatsState, ss.foldl Stats.enqueue_sample st
      = { st with continuous_samples := st.continuous_samples ++ ss } := by
  induction ss with
  | nil => intro st; simp
  | cons s ss ih =>
    intro st
    simp only [List.foldl_cons]
    rw [ih]
    simp [Stats.enqueue_sample]

theorem foldl_push_queue (ss : List Sample) :
    ∀ st : StatsState, (ss.foldl Stats.push_sample st).continuous_samples
      = st.continuous_samples := by
  induction ss with
  | nil => intro st; rfl
  | cons s ss ih =>
    intro st
    simp only [List.foldl_cons]
    rw [ih, push_sample_queue]

theorem update_continuous (st : StatsState) (d ft : ℚ) (r : StatIndex → ℚ)
    (hmode : st.sampling_config.mode = CounterSamplingMode.Continuous) :
    Stats.update st d r ft
      = st.continuous_samples.foldl Stats.push_sample
          { st with continuous_samples := [] } := by
  unfold Stats.update
  rw [hmode]

theorem update_polling (st : StatsState) (d ft : ℚ) (r : StatIndex → ℚ)
    (hmode : st.sampling_config.mode = CounterSamplingMode.Polling) :
    Stats.update st d r ft
      = Stats.push_sample st (pollSample st d r ft) := by
  unfold Stats.update
  rw [hmode]

/-- C5: in continuous mode, an update that drains zero accumulated worker
samples leaves the whole engine state — every circular buffer and all
smoothing state — unchanged. -/
theorem continuous_update_empty_is_noop (st : StatsState) (d ft : ℚ)
    (r : StatIndex → ℚ)
    (hmode : st.sampling_config.mode = CounterSamplingMode.Continuous)
    (hq : st.continuous_samples = []) :
    Stats.update st d r ft = st := by
  rw [update_continuous st d ft r hmode, hq]
  simp only [List.foldl_nil]
  cases st
  simp_all

/-- Witness for C5: a freshly constructed continuous-mode engine is left
unchanged by an update with an empty queue. -/
theorem continuous_update_empty_is_noop_witness :
    (Stats.construct 0 1 [0] [] ⟨CounterSamplingMode.Continuous, none⟩ 4).sampling_config.mode
      = CounterSamplingMode.Continuous ∧
    (Stats.construct 0 1 [0] [] ⟨CounterSamplingMode.Continuous, none⟩ 4).continuous_samples
      = [] ∧
    Stats.update (Stats.construct 0 1 [0] [] ⟨CounterSamplingMode.Continuous, none⟩ 4)
        1 (fun _ => 2) 3
      = Stats.construct 0 1 [0] [] ⟨CounterSamplingMode.Continuous, none⟩ 4 := by
  refine ⟨rfl, rfl, ?_⟩
  exact continuous_update_empty_is_noop
    (Stats.construct 0 1 [0] [] ⟨CounterSamplingMode.Continuous, none⟩ 4)
    1 3 (fun _ => 2) rfl rfl

/-- C3: in continuous mode, the worker samples enqueued since the previous
update are all drained by a single update and merged in exactly the relative
order they were produced, oldest first. -/
theorem continuous_update_fifo (st0 : StatsState) (ss : List Sample)
    (d ft : ℚ) (r : StatIndex → ℚ)
    (hmode : st0.sampling_config.mode = CounterSamplingMode.Continuous)
    (hq : st0.continuous_samples = []) :
    (Stats.update (ss.foldl Stats.enqueue_sample st0) d r ft).continuous_samples
      = [] ∧
    Stats.update (ss.foldl Stats.enqueue_sample st0) d r ft
      = ss.foldl Stats.push_sample st0 := by
  have henq : ss.foldl Stats.enqueue_sample st0
      = { st0 with continuous_samples := ss } := by
    rw [foldl_enqueue, hq]
    rfl
  have hmain : Stats.update (ss.foldl Stats.enqueue_sample st0) d r ft
      = ss.foldl Stats.push_sample st0 := by
    rw [henq, update_continuous { st0 with continuous_samples := ss } d ft r hmode]
    have h2 : ({ { st0 with continuous_samples := ss } with
        continuous_samples := [] } : StatsState) = st0 := by
      cases st0
      simp_all
    rw [show ({ st0 with continuous_samples := ss } : StatsState).continuous_samples
        = ss from rfl, h2]
  refine ⟨?_, hmain⟩
  rw [hmain, foldl_push_queue, hq]

/-- Witness for C3: one enqueued worker sample is drained and merged by a
single update. -/
theorem continuous_update_fifo_witness :
    (Stats.construct 0 1 [0] [] ⟨CounterSamplingMode.Continuous, none⟩ 4).sampling_config.mode
      = CounterSamplingMode.Continuous ∧
    (Stats.construct 0 1 [0] [] ⟨CounterSamplingMode.Continuous, none⟩ 4).continuous_samples
      = [] ∧
    Stats.update
        ([[((0 : StatIndex), (10 : ℚ))]].foldl Stats.enqueue_sample
          (Stats.construct 0 1 [0] [] ⟨CounterSamplingMode.Continuous, none⟩ 4))
        1 (fun _ => 2) 3
      = [[((0 : StatIndex), (10 : ℚ))]].foldl Stats.push_sample
          (Stats.construct 0 1 [0] [] ⟨CounterSamplingMode.Continuous, none⟩ 4) := by
  refine ⟨rfl, rfl, ?_⟩
  exact (continuous_update_fifo
    (Stats.construct 0 1 [0] [] ⟨CounterSamplingMode.Continuous, none⟩ 4)
    [[((0 : StatIndex), (10 : ℚ))]] 1 3 (fun _ => 2) rfl rfl).2

/-- C10: omitting the optional construction parameters is the same as
constructing with the Polling sampling configuration and buffer size 16, the
defaults declared at stats.h lines 56-57, for every device, framebuffer
count, requested set and provider population. -/
theorem construct_default_arguments (device num_framebuffers : Nat)
    (requested : List StatIndex)
    (host_provider_caps : List (List StatIndex)) :
    Stats.construct_defaulted device num_framebuffers requested host_provider_caps
      = Stats.construct device num_framebuffers requested host_provider_caps
          ⟨CounterSamplingMode.Polling, none⟩ 16 := rfl

theorem lookup_filterMap_guard {P : StatIndex → Bool} (val : StatIndex → ℚ) :
    ∀ (l : List StatIndex) (id : StatIndex), id ∈ l → P id = true →
      (l.filterMap (fun i => if P i then some (i, val i) else none)).lookup id
        = some (val id) := by
  intro l
  induction l with
  | nil => intro id h; simp at h
  | cons a as ih =>
    intro id hmem hP
    by_cases hai : a = id
    · subst hai
      simp [List.filterMap_cons, hP, List.lookup]
    · have hmem2 : id ∈ as := by
        cases List.mem_cons.mp hmem with
        | inl h => exact absurd h.symm hai
        | inr h => exact h
      have hne : (id == a) = false := by
        simpa using fun h => hai h.symm
      cases hPa : P a with
      | false =>
        rw [List.filterMap_cons]
        simp only [hPa, Bool.false_eq_true, if_false]
        exact ih id hmem2 hP
      | true =>
        rw [List.filterMap_cons]
        simp only [hPa, if_true]
        simp only [List.lookup, hne]
        exact ih id hmem2 hP

theorem pollSample_lookup_frame_time (st : StatsState) (d ft : ℚ)
    (r : StatIndex → ℚ) (hreq : frame_time_index ∈ st.requested_stats)
    (hav : Stats.is_available st frame_time_index = true) :
    (pollSample st d r ft).lookup frame_time_index
      = some (frameTimeValue d ft) := by
  have h := lookup_filterMap_guard
    (P := fun i => (ownerOf st.requested_stats st.provider_caps i).isSome)
    (fun i => if i = frame_time_index then frameTimeValue d ft else r i)
    st.requested_stats frame_time_index hreq hav
  simpa [pollSample, guardedSample] using h

/-- C6 (amended): in polling mode, every update merges a frame-time sample
whose value is the delta_time argument when it is non-zero, with fallback to
the distinguished frame-time provider's own reading when delta_time is zero;
in continuous mode frame-time values are merged only with drained worker
samples. -/
theorem polling_update_frame_time (st : StatsState) (d ft : ℚ)
    (r : StatIndex → ℚ) (m : MetricState)
    (hmode : st.sampling_config.mode = CounterSamplingMode.Polling)
    (hreq : frame_time_index ∈ st.requested_stats)
    (hav : Stats.is_available st frame_time_index = true)
    (hm : st.counters.lookup frame_time_index = some m) :
    (Stats.update st d r ft).counters.lookup frame_time_index
      = some (mergeValue st.capacity alpha_smoothing m (frameTimeValue d ft)) ∧
    (d ≠ 0 → frameTimeValue d ft = d) ∧
    (d = 0 → frameTimeValue d ft = ft) := by
  refine ⟨?_, fun h => if_neg h, fun h => if_pos h⟩
  rw [update_polling st d ft r hmode, push_sample_lookup, hm]
  simp [mergeEntry, pollSample_lookup_frame_time st d ft r hreq hav]

/-- Witness for C6 (amended): a polling update with delta_time 1 merges the
frame-time value 1. -/
theorem polling_update_frame_time_witness :
    (Stats.construct 0 1 [0] [] default_sampling_config 4).sampling_config.mode
      = CounterSamplingMode.Polling ∧
    frame_time_index ∈ (Stats.construct 0 1 [0] [] default_sampling_config 4).requested_stats ∧
    Stats.is_available (Stats.construct 0 1 [0] [] default_sampling_config 4)
      frame_time_index = true ∧
    (Stats.construct 0 1 [0] [] default_sampling_config 4).counters.lookup
      frame_time_index = some ⟨[], none⟩ ∧
    (Stats.update (Stats.construct 0 1 [0] [] default_sampling_config 4)
        1 (fun _ => 2) 5).counters.lookup frame_time_index
      = some (mergeValue 4 alpha_smoothing ⟨[], none⟩ (frameTimeValue 1 5)) := by
  refine ⟨rfl, by decide, rfl, rfl, ?_⟩
  exact (polling_update_frame_time
    (Stats.construct 0 1 [0] [] default_sampling_config 4)
    1 5 (fun _ => 2) ⟨[], none⟩ rfl (by decide) rfl rfl).1

/-- C6 counterexample: the claim quantifies over every call to update, but in
continuous mode an update that drains zero worker samples produces no
frame-time sample at all: with a non-zero delta_time the state, including the
frame-time buffer, is unchanged and the frame-time series stays empty. -/
theorem update_frame_time_counterexample :
    Stats.update (Stats.construct 0 1 [frame_time_index] []
        ⟨CounterSamplingMode.Continuous, none⟩ 4) 1 (fun _ => 0) 5
      = Stats.construct 0 1 [frame_time_index] []
          ⟨CounterSamplingMode.Continuous, none⟩ 4 ∧
    Stats.get_data (Stats.construct 0 1 [frame_time_index] []
        ⟨CounterSamplingMode.Continuous, none⟩ 4) frame_time_index
      = Except.ok [] := ⟨rfl, rfl⟩

theorem foldl_push_requested (ss : List Sample) :
    ∀ st : StatsState, (ss.foldl Stats.push_sample st).requested_stats
      = st.requested_stats := by
  induction ss with
  | nil => intro st; rfl
  | cons s ss ih =>
    intro st
    simp only [List.foldl_cons]
    rw [ih, push_sample_requested]

theorem foldl_push_caps (ss : List Sample) :
    ∀ st : StatsState, (ss.foldl Stats.push_sample st).provider_caps
      = st.provider_caps := by
  induction ss with
  | nil => intro st; rfl
  | cons s ss ih =>
    intro st
    simp only [List.foldl_cons]
    rw [ih, push_sample_provider_caps]

theorem foldl_push_keys (ss : List Sample) :
    ∀ st : StatsState, (ss.foldl Stats.push_sample st).counters.map Prod.fst
      = st.counters.map Prod.fst := by
  induction ss with
  | nil => intro st; rfl
  | cons s ss ih =>
    intro st
    simp only [List.foldl_cons]
    rw [ih, push_sample_keys]

theorem lookup_guardedSample_none (requested : List StatIndex)
    (caps : List (List StatIndex)) (val : StatIndex → ℚ) (id : StatIndex)
    (h : ownerOf requested caps id = none) :
    (guardedSample requested caps val).lookup id = none := by
  apply lookup_eq_none_of_not_mem_keys
  intro hmem
  simp only [guardedSample, List.mem_map, List.mem_filterMap] at hmem
  obtain ⟨e, ⟨j, hj, hf⟩, he⟩ := hmem
  by_cases hg : (ownerOf requested caps j).isSome
  · rw [if_pos hg] at hf
    obtain rfl := Option.some.inj hf
    have : j = id := he
    subst this
    rw [h] at hg
    simp at hg
  · rw [if_neg hg] at hf
    exact Option.noConfusion hf

theorem push_sample_preserve_entry (st : StatsState) (s : Sample)
    (id : StatIndex) (hs : s.lookup id = none) :
    (Stats.push_sample st s).counters.lookup id = st.counters.lookup id := by
  rw [push_sample_lookup]
  cases hm : st.counters.lookup id with
  | none => rfl
  | some m => simp [mergeEntry, hs]

theorem foldl_push_preserve_entry (id : StatIndex) (ss : List Sample) :
    ∀ st : StatsState, (∀ s ∈ ss, s.lookup id = none) →
      (ss.foldl Stats.push_sample st).counters.lookup id
        = st.counters.lookup id := by
  induction ss with
  | nil => intro st _; rfl
  | cons s ss ih =>
    intro st hall
    simp only [List.foldl_cons]
    rw [ih (Stats.push_sample st s) (fun s2 h2 => hall s2 (List.mem_cons_of_mem s h2)),
      push_sample_preserve_entry st s id (hall s (List.mem_cons_self s ss))]

theorem lookup_const_map (l : List StatIndex) (m : MetricState) (id : StatIndex)
    (h : id ∈ l) : (l.map (fun i => (i, m))).lookup id = some m := by
  induction l with
  | nil => simp at h
  | cons a as ih =>
    by_cases hai : a = id
    · subst hai
      simp [List.lookup]
    · have hne : (id == a) = false := by
        simpa using fun hh => hai hh.symm
      simp only [List.map_cons, List.lookup, hne]
      exact ih (by
        cases List.mem_cons.mp h with
        | inl hh => exact absurd hh.symm hai
        | inr hh => exact hh)

theorem resize_lookup (capF : Nat → Nat) (st : StatsState) (w : Nat)
    (id : StatIndex) :
    (Stats.resize capF st w).counters.lookup id
      = (st.counters.lookup id).map (fun m => { m with buffer := [] }) :=
  lookup_map_entry st.counters
    (fun _ m => ({ m with buffer := [] } : MetricState)) id

theorem keys_const_map (l : List StatIndex) (m : MetricState) :
    (l.map (fun i => (i, m))).map Prod.fst = l := by
  induction l with
  | nil => rfl
  | cons a as ih => simp [ih]

theorem applyOp_unavailable_inv (capF : Nat → Nat)
    (requested : List StatIndex) (caps : List (List StatIndex)) (id : StatIndex)
    (hunav : ownerOf requested caps id = none) (op : Op) (st : StatsState)
    (h1 : st.requested_stats = requested) (h2 : st.provider_caps = caps)
    (h3 : ∃ sm, st.counters.lookup id = some ⟨[], sm⟩)
    (h4 : ∀ s ∈ st.continuous_samples, s.lookup id = none) :
    (applyOp capF st op).requested_stats = requested ∧
    (applyOp capF st op).provider_caps = caps ∧
    (∃ sm, (applyOp capF st op).counters.lookup id = some ⟨[], sm⟩) ∧
    (∀ s ∈ (applyOp capF st op).continuous_samples, s.lookup id = none) := by
  obtain ⟨sm, hsm⟩ := h3
  cases op with
  | update d r ft =>
    simp only [applyOp]
    cases hmode : st.sampling_config.mode with
    | Polling =>
      rw [update_polling st d ft r hmode]
      refine ⟨by rw [push_sample_requested, h1], by rw [push_sample_provider_caps, h2],
        ⟨sm, ?_⟩, ?_⟩
      · rw [push_sample_preserve_entry st _ id ?hnone, hsm]
        case hnone =>
          show (guardedSample st.requested_stats st.provider_caps _).lookup id = none
          rw [h1, h2]
          exact lookup_guardedSample_none requested caps _ id hunav
      · rw [push_sample_queue]
        exact h4
    | Continuous =>
      rw [update_continuous st d ft r hmode]
      refine ⟨by rw [foldl_push_requested]; exact h1,
        by rw [foldl_push_caps]; exact h2, ⟨sm, ?_⟩, ?_⟩
      · rw [foldl_push_preserve_entry id st.continuous_samples _ h4]
        exact hsm
      · rw [foldl_push_queue]
        intro s hs
        simp at hs
  | resize w =>
    simp only [applyOp]
    refine ⟨h1, h2, ⟨sm, ?_⟩, h4⟩
    rw [resize_lookup capF st w id, hsm]
    rfl
  | worker_enqueue r =>
    simp only [applyOp, Stats.enqueue_sample]
    refine ⟨h1, h2, ⟨sm, hsm⟩, ?_⟩
    intro s hs
    cases List.mem_append.mp hs with
    | inl h => exact h4 s h
    | inr h =>
      have : s = workerSample st r := by simpa using h
      subst this
      show (guardedSample st.requested_stats st.provider_caps r).lookup id = none
      rw [h1, h2]
      exact lookup_guardedSample_none requested caps r id hunav

theorem foldl_applyOp_unavailable (capF : Nat → Nat)
    (requested : List StatIndex) (caps : List (List StatIndex)) (id : StatIndex)
    (hunav : ownerOf requested caps id = none) (ops : List Op) :
    ∀ st : StatsState,
      st.requested_stats = requested → st.provider_caps = caps →
      (∃ sm, st.counters.lookup id = some ⟨[], sm⟩) →
      (∀ s ∈ st.continuous_samples, s.lookup id = none) →
      (ops.foldl (applyOp capF) st).requested_stats = requested ∧
      (ops.foldl (applyOp capF) st).provider_caps = caps ∧
      (∃ sm, (ops.foldl (applyOp capF) st).counters.lookup id = some ⟨[], sm⟩) ∧
      (∀ s ∈ (ops.foldl (applyOp capF) st).continuous_samples,
        s.lookup id = none) := by
  induction ops with
  | nil => intro st h1 h2 h3 h4; exact ⟨h1, h2, h3, h4⟩
  | cons op ops ih =>
    intro st h1 h2 h3 h4
    simp only [List.foldl_cons]
    obtain ⟨g1, g2, g3, g4⟩ :=
      applyOp_unavailable_inv capF requested caps id hunav op st h1 h2 h3 h4
    exact ih (applyOp capF st op) g1 g2 g3 g4

/-- C4: a requested metric identifier that no capable provider claimed at
construction stays unavailable and yields an empty data sequence after any
sequence of updates, resizes and worker enqueues — the engine's entire
lifetime. -/
theorem unavailable_metric_degrades (device num_framebuffers : Nat)
    (requested : List StatIndex) (host_provider_caps : List (List StatIndex))
    (cfg : CounterSamplingConfig) (buffer_size : Nat) (capF : Nat → Nat)
    (ops : List Op) (id : StatIndex) (hreq : id ∈ requested)
    (hunav : Stats.is_available
      (Stats.construct device num_framebuffers requested host_provider_caps
        cfg buffer_size) id = false) :
    Stats.is_available
      (ops.foldl (applyOp capF)
        (Stats.construct device num_framebuffers requested host_provider_caps
          cfg buffer_size)) id = false ∧
    Stats.get_data
      (ops.foldl (applyOp capF)
        (Stats.construct device num_framebuffers requested host_provider_caps
          cfg buffer_size)) id = Except.ok [] := by
  have howner : ownerOf requested ([frame_time_index] :: host_provider_caps) id
      = none := by
    have h := hunav
    unfold Stats.is_available at h
    cases howner : ownerOf (Stats.construct device num_framebuffers requested
        host_provider_caps cfg buffer_size).requested_stats
        (Stats.construct device num_framebuffers requested host_provider_caps
          cfg buffer_size).provider_caps id with
    | none => exact howner
    | some p => rw [howner] at h; simp at h
  obtain ⟨g1, g2, g3, g4⟩ := foldl_applyOp_unavailable capF requested
    ([frame_time_index] :: host_provider_caps) id howner ops
    (Stats.construct device num_framebuffers requested host_provider_caps
      cfg buffer_size)
    rfl rfl ⟨none, lookup_const_map requested ⟨[], none⟩ id hreq⟩
    (by intro s hs; simp [Stats.construct] at hs)
  obtain ⟨sm, hsm⟩ := g3
  constructor
  · unfold Stats.is_available
    rw [g1, g2, howner]
    rfl
  · unfold Stats.get_data
    rw [hsm]

/-- Witness for C4: metric 7 is requested but no provider covers it; after an
update, a worker enqueue and a resize, it is still unavailable and its data
is empty. -/
theorem unavailable_metric_degrades_witness :
    (7 : StatIndex) ∈ [0, 7] ∧
    Stats.is_available
      (Stats.construct 0 1 [0, 7] [] default_sampling_config 4) 7 = false ∧
    Stats.is_available
      ([Op.update 1 (fun _ => 3) 2, Op.worker_enqueue (fun _ => 4),
          Op.resize 64].foldl (applyOp (fun w => w / 16))
        (Stats.construct 0 1 [0, 7] [] default_sampling_config 4)) 7 = false ∧
    Stats.get_data
      ([Op.update 1 (fun _ => 3) 2, Op.worker_enqueue (fun _ => 4),
          Op.resize 64].foldl (applyOp (fun w => w / 16))
        (Stats.construct 0 1 [0, 7] [] default_sampling_config 4)) 7
      = Except.ok [] := by
  refine ⟨by decide, rfl, ?_, ?_⟩
  · exact (unavailable_metric_degrades 0 1 [0, 7] [] default_sampling_config 4
      (fun w => w / 16)
      [Op.update 1 (fun _ => 3) 2, Op.worker_enqueue (fun _ => 4), Op.resize 64]
      7 (by decide) rfl).1
  · exact (unavailable_metric_degrades 0 1 [0, 7] [] default_sampling_config 4
      (fun w => w / 16)
      [Op.update 1 (fun _ => 3) 2, Op.worker_enqueue (fun _ => 4), Op.resize 64]
      7 (by decide) rfl).2

theorem applyOp_keys (capF : Nat → Nat) (op : Op) (st : StatsState) :
    (applyOp capF st op).counters.map Prod.fst = st.counters.map Prod.fst := by
  cases op with
  | update d r ft =>
    simp only [applyOp]
    cases hmode : st.sampling_config.mode with
    | Polling => rw [update_polling st d ft r hmode, push_sample_keys]
    | Continuous => rw [update_continuous st d ft r hmode, foldl_push_keys]
  | resize w =>
    simp only [applyOp, Stats.resize]
    exact keys_map_entry st.counters (fun _ m => { m with buffer := [] })
  | worker_enqueue r => rfl

theorem foldl_applyOp_keys (capF : Nat → Nat) (ops : List Op) :
    ∀ st : StatsState, (ops.foldl (applyOp capF) st).counters.map Prod.fst
      = st.counters.map Prod.fst := by
  induction ops with
  | nil => intro st; rfl
  | cons op ops ih =>
    intro st
    simp only [List.foldl_cons]
    rw [ih, applyOp_keys]

/-- C7: querying data for an identifier outside the requested set fails
loudly — std::map::at throws, modelled as Except.error — at any point of the
engine's lifetime; it never silently returns a value. -/
theorem get_data_outside_requested (device num_framebuffers : Nat)
    (requested : List StatIndex) (host_provider_caps : List (List StatIndex))
    (cfg : CounterSamplingConfig) (buffer_size : Nat) (capF : Nat → Nat)
    (ops : List Op) (id : StatIndex) (hid : id ∉ requested) :
    Stats.get_data
      (ops.foldl (applyOp capF)
        (Stats.construct device num_framebuffers requested host_provider_caps
          cfg buffer_size)) id = Except.error () := by
  have hkeys : (ops.foldl (applyOp capF)
      (Stats.construct device num_framebuffers requested host_provider_caps
        cfg buffer_size)).counters.map Prod.fst = requested := by
    rw [foldl_applyOp_keys]
    exact keys_const_map requested ⟨[], none⟩
  unfold Stats.get_data
  rw [lookup_eq_none_of_not_mem_keys _ id (by rw [hkeys]; exact hid)]

/-- Witness for C7: identifier 5 is outside the requested set; get_data
errors after an update and a resize. -/
theorem get_data_outside_requested_witness :
    (5 : StatIndex) ∉ [0] ∧
    Stats.get_data
      ([Op.update 1 (fun _ => 3) 2, Op.resize 64].foldl
        (applyOp (fun w => w / 16))
        (Stats.construct 0 1 [0] [] default_sampling_config 4)) 5
      = Except.error () := by
  refine ⟨by decide, ?_⟩
  exact get_data_outside_requested 0 1 [0] [] default_sampling_config 4
    (fun w => w / 16) [Op.update 1 (fun _ => 3) 2, Op.resize 64] 5 (by decide)

theorem tstep_sample_none {s : TState} (hw : s.worker = WorkerStatus.done) :
    tstep s TEvent.sample = none := by
  simp [tstep, hw]

theorem tstep_preserves_done {s s2 : TState} {e : TEvent}
    (h : tstep s e = some s2) (hw : s.worker = WorkerStatus.done) :
    s2.worker = WorkerStatus.done := by
  cases e <;> simp only [tstep] at h <;> split at h <;>
    first
      | exact Option.noConfusion h
      | (obtain rfl := Option.some.inj h; first | rfl | exact hw)

theorem runTrace_done_no_sample (es : List TEvent) :
    ∀ s sf : TState, s.worker = WorkerStatus.done →
      runTrace s es = some sf → ∀ e ∈ es, e ≠ TEvent.sample := by
  induction es with
  | nil => intro s sf hw hrun e he; simp at he
  | cons e2 es ih =>
    intro s sf hw hrun e he
    simp only [runTrace] at hrun
    cases hstep : tstep s e2 with
    | none => rw [hstep] at hrun; exact Option.noConfusion hrun
    | some s1 =>
      rw [hstep] at hrun
      cases List.mem_cons.mp he with
      | inl heq =>
        subst heq
        intro hcon
        subst hcon
        rw [tstep_sample_none hw] at hstep
        exact Option.noConfusion hstep
      | inr hmem =>
        exact ih s1 sf (tstep_preserves_done hstep hw) hrun e hmem

theorem tstep_preserves_joined_done {s s2 : TState} {e : TEvent}
    (h : tstep s e = some s2)
    (hinv : s.joined = true → s.worker = WorkerStatus.done) :
    s2.joined = true → s2.worker = WorkerStatus.done := by
  cases e with
  | sample =>
    simp only [tstep] at h
    split at h
    · obtain rfl := Option.some.inj h; exact hinv
    · exact Option.noConfusion h
  | worker_exit =>
    simp only [tstep] at h
    split at h
    · obtain rfl := Option.some.inj h; intro _; rfl
    · exact Option.noConfusion h
  | signal_stop =>
    simp only [tstep] at h
    split at h
    · exact Option.noConfusion h
    · obtain rfl := Option.some.inj h; exact hinv
  | join =>
    simp only [tstep] at h
    split at h
    · rename_i hguard
      obtain rfl := Option.some.inj h
      intro _
      exact hguard.2.1
    · exact Option.noConfusion h
  | destroy =>
    simp only [tstep] at h
    split at h
    · obtain rfl := Option.some.inj h; exact hinv
    · exact Option.noConfusion h

theorem runTrace_joined_done (es : List TEvent) :
    ∀ s sf : TState, (s.joined = true → s.worker = WorkerStatus.done) →
      runTrace s es = some sf →
      (sf.joined = true → sf.worker = WorkerStatus.done) := by
  induction es with
  | nil =>
    intro s sf hinv hrun
    obtain rfl := Option.some.inj hrun
    exact hinv
  | cons e es ih =>
    intro s sf hinv hrun
    simp only [runTrace] at hrun
    cases hstep : tstep s e with
    | none => rw [hstep] at hrun; exact Option.noConfusion hrun
    | some s1 =>
      rw [hstep] at hrun
      exact ih s1 sf (tstep_preserves_joined_done hstep hinv) hrun

theorem runTrace_append (t1 : List TEvent) :
    ∀ (t2 : List TEvent) (s sf : TState), runTrace s (t1 ++ t2) = some sf →
      ∃ s1, runTrace s t1 = some s1 ∧ runTrace s1 t2 = some sf := by
  induction t1 with
  | nil => intro t2 s sf h; exact ⟨s, rfl, h⟩
  | cons e t1 ih =>
    intro t2 s sf h
    simp only [List.cons_append, runTrace] at h
    cases hstep : tstep s e with
    | none => rw [hstep] at h; exact Option.noConfusion h
    | some s1 =>
      rw [hstep] at h
      obtain ⟨sm, h1, h2⟩ := ih t2 s1 sf h
      refine ⟨sm, ?_, h2⟩
      show runTrace s (e :: t1) = some sm
      simp only [runTrace, hstep]
      exact h1

theorem runTrace_split (tr : List TEvent) (s0 sf : TState)
    (hrun : runTrace s0 tr = some sf) (j : Nat) (hj : j < tr.length) :
    ∃ s1 s2, runTrace s0 (tr.take j) = some s1 ∧
      tstep s1 (tr.get ⟨j, hj⟩) = some s2 ∧
      runTrace s2 (tr.drop (j + 1)) = some sf := by
  have hsplit : tr = tr.take j ++ (tr.get ⟨j, hj⟩ :: tr.drop (j + 1)) := by
    conv_lhs => rw [← List.take_append_drop j tr]
    congr 1
    rw [List.drop_eq_getElem_cons hj, List.get_eq_getElem]
  rw [hsplit] at hrun
  obtain ⟨s1, h1, h2⟩ := runTrace_append (tr.take j) _ s0 sf hrun
  simp only [runTrace] at h2
  cases hstep : tstep s1 (tr.get ⟨j, hj⟩) with
  | none => rw [hstep] at h2; exact Option.noConfusion h2
  | some s2 =>
    rw [hstep] at h2
    exact ⟨s1, s2, h1, hstep, h2⟩

theorem tstep_destroy_joined {s s2 : TState}
    (h : tstep s TEvent.destroy = some s2) : s.joined = true := by
  simp only [tstep] at h
  split at h
  · rename_i hg; exact hg.1
  · exact Option.noConfusion h

theorem tstep_join_signaled {s s2 : TState}
    (h : tstep s TEvent.join = some s2) : s.stop_signaled = true := by
  simp only [tstep] at h
  split at h
  · rename_i hg; exact hg.1
  · exact Option.noConfusion h

theorem runTrace_joined_source (es : List TEvent) :
    ∀ s sf : TState, runTrace s es = some sf → sf.joined = true →
      s.joined = true ∨ TEvent.join ∈ es := by
  induction es with
  | nil =>
    intro s sf h hj
    obtain rfl := Option.some.inj h
    exact Or.inl hj
  | cons e es ih =>
    intro s sf h hj
    simp only [runTrace] at h
    cases hstep : tstep s e with
    | none => rw [hstep] at h; exact Option.noConfusion h
    | some s1 =>
      rw [hstep] at h
      cases ih s1 sf h hj with
      | inr hmem => exact Or.inr (List.mem_cons_of_mem e hmem)
      | inl hj1 =>
        cases e with
        | join => exact Or.inr (List.mem_cons_self _ _)
        | sample =>
          left
          simp only [tstep] at hstep
          split at hstep
          · obtain rfl := Option.some.inj hstep; exact hj1
          · exact Option.noConfusion hstep
        | worker_exit =>
          left
          simp only [tstep] at hstep
          split at hstep
          · obtain rfl := Option.some.inj hstep; exact hj1
          · exact Option.noConfusion hstep
        | signal_stop =>
          left
          simp only [tstep] at hstep
          split at hstep
          · exact Option.noConfusion hstep
          · obtain rfl := Option.some.inj hstep; exact hj1
        | destroy =>
          left
          simp only [tstep] at hstep
          split at hstep
          · obtain rfl := Option.some.inj hstep; exact hj1
          · exact Option.noConfusion hstep

theorem runTrace_signaled_source (es : List TEvent) :
    ∀ s sf : TState, runTrace s es = some sf → sf.stop_signaled = true →
      s.stop_signaled = true ∨ TEvent.signal_stop ∈ es := by
  induction es with
  | nil =>
    intro s sf h hs
    obtain rfl := Option.some.inj h
    exact Or.inl hs
  | cons e es ih =>
    intro s sf h hs
    simp only [runTrace] at h
    cases hstep : tstep s e with
    | none => rw [hstep] at h; exact Option.noConfusion h
    | some s1 =>
      rw [hstep] at h
      cases ih s1 sf h hs with
      | inr hmem => exact Or.inr (List.mem_cons_of_mem e hmem)
      | inl hs1 =>
        cases e with
        | signal_stop => exact Or.inr (List.mem_cons_self _ _)
        | sample =>
          left
          simp only [tstep] at hstep
          split at hstep
          · obtain rfl := Option.some.inj hstep; exact hs1
          · exact Option.noConfusion hstep
        | worker_exit =>
          left
          simp only [tstep] at hstep
          split at hstep
          · obtain rfl := Option.some.inj hstep; exact hs1
          · exact Option.noConfusion hstep
        | join =>
          left
          simp only [tstep] at hstep
          split at hstep
          · obtain rfl := Option.some.inj hstep; exact hs1
          · exact Option.noConfusion hstep
        | destroy =>
          left
          simp only [tstep] at hstep
          split at hstep
          · obtain rfl := Option.some.inj hstep; exact hs1
          · exact Option.noConfusion hstep

/-- C9: in every admissible teardown trace of continuous mode, the destructor
fulfils the stop promise before the join and joins the worker before teardown
completes, so every provider sampling call precedes destruction — no sampling
ever executes after the engine is destroyed. -/
theorem destructor_ordering (tr : List TEvent) (sf : TState)
    (hrun : runTrace initTState tr = some sf) :
    (∀ i j (hi : i < tr.length) (hj : j < tr.length),
        tr.get ⟨i, hi⟩ = TEvent.sample → tr.get ⟨j, hj⟩ = TEvent.destroy →
        i < j) ∧
    (∀ j (hj : j < tr.length), tr.get ⟨j, hj⟩ = TEvent.destroy →
        TEvent.join ∈ tr.take j) ∧
    (∀ k (hk : k < tr.length), tr.get ⟨k, hk⟩ = TEvent.join →
        TEvent.signal_stop ∈ tr.take k) := by
  refine ⟨?_, ?_, ?_⟩
  · intro i j hi hj hsi hdj
    rcases Nat.lt_trichotomy i j with hlt | heq | hgt
    · exact hlt
    · exfalso
      subst heq
      rw [hsi] at hdj
      exact TEvent.noConfusion hdj
    · exfalso
      obtain ⟨s1, s2, h1, hstep, h2⟩ := runTrace_split tr initTState sf hrun j hj
      rw [hdj] at hstep
      have hj1 : s1.joined = true := tstep_destroy_joined hstep
      have hw1 : s1.worker = WorkerStatus.done :=
        runTrace_joined_done (tr.take j) initTState s1
          (fun hcon => absurd hcon (by decide)) h1 hj1
      have hw2 : s2.worker = WorkerStatus.done := tstep_preserves_done hstep hw1
      have hnos := runTrace_done_no_sample (tr.drop (j + 1)) s2 sf hw2 h2
      have hidx : i - (j + 1) < (tr.drop (j + 1)).length := by
        rw [List.length_drop]; omega
      have hget : (tr.drop (j + 1)).get ⟨i - (j + 1), hidx⟩ = TEvent.sample := by
        rw [List.get_eq_getElem, List.getElem_drop]
        have harith : j + 1 + (i - (j + 1)) = i := by omega
        simp only [harith]
        rw [List.get_eq_getElem] at hsi
        exact hsi
      exact hnos TEvent.sample (hget ▸ List.get_mem _ _ _) rfl
  · intro j hj hdj
    obtain ⟨s1, s2, h1, hstep, h2⟩ := runTrace_split tr initTState sf hrun j hj
    rw [hdj] at hstep
    have hj1 : s1.joined = true := tstep_destroy_joined hstep
    cases runTrace_joined_source (tr.take j) initTState s1 h1 hj1 with
    | inl h => exact absurd h (by decide)
    | inr h => exact h
  · intro k hk hjk
    obtain ⟨s1, s2, h1, hstep, h2⟩ := runTrace_split tr initTState sf hrun k hk
    rw [hjk] at hstep
    have hs1 : s1.stop_signaled = true := tstep_join_signaled hstep
    cases runTrace_signaled_source (tr.take k) initTState s1 h1 hs1 with
    | inl h => exact absurd h (by decide)
    | inr h => exact h

/-- Witness for C9: the canonical teardown trace — the worker samples once,
the destructor signals stop, the worker observes it and exits, the destructor
joins and completes; the sample precedes destruction, the join precedes the
destroy, and the stop signal precedes the join. -/
theorem destructor_ordering_witness :
    runTrace initTState
      [TEvent.sample, TEvent.signal_stop, TEvent.worker_exit, TEvent.join,
        TEvent.destroy]
      = some ⟨WorkerStatus.done, true, true, true⟩ ∧
    (0 : Nat) < 4 ∧
    TEvent.join ∈ [TEvent.sample, TEvent.signal_stop, TEvent.worker_exit,
      TEvent.join, TEvent.destroy].take 4 ∧
    TEvent.signal_stop ∈ [TEvent.sample, TEvent.signal_stop, TEvent.worker_exit,
      TEvent.join, TEvent.destroy].take 3 := by
  refine ⟨by decide, ?_, ?_, ?_⟩
  · exact (destructor_ordering
      [TEvent.sample, TEvent.signal_stop, TEvent.worker_exit, TEvent.join,
        TEvent.destroy]
      ⟨WorkerStatus.done, true, true, true⟩ (by decide)).1 0 4
      (by decide) (by decide) rfl rfl
  · exact (destructor_ordering
      [TEvent.sample, TEvent.signal_stop, TEvent.worker_exit, TEvent.join,
        TEvent.destroy]
      ⟨WorkerStatus.done, true, true, true⟩ (by decide)).2.1 4 (by decide) rfl
  · exact (destructor_ordering
      [TEvent.sample, TEvent.signal_stop, TEvent.worker_exit, TEvent.join,
        TEvent.destroy]
      ⟨WorkerStatus.done, true, true, true⟩ (by decide)).2.2 3 (by decide) rfl

end VkbStats
